import Mathlib

/-!
Verification development for the editing core of the `none-editor` repository
(`src/buffer.rs`, `src/window.rs`).

The text buffer (`Buffer` in buffer.rs) wraps a `ropey::Rope`.  We model the
rope as a `List Char` together with ropey's documented line-break semantics for
the terminators this codebase deals in (`\n`, `\r`): a line break is a lone
`'\n'`, a lone `'\r'`, or the pair `"\r\n"` treated as a single break.  Every
line except possibly the last ends with its break; a buffer always has at least
one line.

Machine integers (`usize`, `i32`, `u32`) are modelled as `Nat`; along the code
paths modelled here all of them are non-negative and small, except where an
operation can fail (underflow / division by zero / out-of-range index), which
is modelled by `Option` (Rust panics become `none`).
-/

/-- Splits a character sequence into its lines, each line keeping its
terminating break; models ropey's line segmentation (LF, CR, and CRLF as a
single break).  A trailing break yields a final empty line; the empty text is
one empty line. -/
def splitLines : List Char → List (List Char)
  | [] => [[]]
  | c :: rest =>
    if c = '\n' then ['\n'] :: splitLines rest
    else if c = '\r' then
      match rest with
      | [] => [['\r'], []]
      | c2 :: rest2 =>
        if c2 = '\n' then ['\r', '\n'] :: splitLines rest2
        else ['\r'] :: splitLines (c2 :: rest2)
    else (c :: (splitLines rest).headD []) :: (splitLines rest).tail

/-- Total length in characters of a list of lines. -/
def sumLens (ls : List (List Char)) : Nat := (ls.map List.length).sum

/-- Index of the line containing a character offset: walk the lines, clamping
everything at or beyond the start of the final line to the final line (ropey's
`char_to_line` maps the one-past-the-end offset to the last line). -/
def findLine : List (List Char) → Nat → Nat
  | [], _ => 0
  | [_], _ => 0
  | L :: ls, idx => if idx < L.length then 0 else 1 + findLine ls (idx - L.length)

/-- Model of `Rope::len_lines`. -/
def lenLines (s : List Char) : Nat := (splitLines s).length

/-- Model of `Rope::line_to_char`: character offset of the start of a line
(sum of the lengths of the preceding lines). -/
def lineToChar (s : List Char) (l : Nat) : Nat := sumLens ((splitLines s).take l)

/-- Model of `Rope::char_to_line`. -/
def charToLine (s : List Char) (idx : Nat) : Nat := findLine (splitLines s) idx

/-- Model of `Rope::line`: the line at the given index, terminator included. -/
def getLine (s : List Char) (l : Nat) : List Char := (splitLines s).getD l []

/-- Model of the text `Buffer` of buffer.rs: a rope of characters, an optional
file name, and the dirty flag. -/
structure Buffer where
  rope : List Char
  filename : Option String
  is_dirty : Bool
deriving DecidableEq

/-- Model of `Buffer::new`. -/
def Buffer.new : Buffer := ⟨[], none, false⟩

/-- Model of `Buffer::from_str`. -/
def Buffer.from_str (text : List Char) : Buffer := ⟨text, none, false⟩

/-- Model of `Buffer::len_chars`. -/
def Buffer.len_chars (b : Buffer) : Nat := b.rope.length

/-- Model of `Buffer::len_lines`. -/
def Buffer.len_lines (b : Buffer) : Nat := lenLines b.rope

/-- Model of `Buffer::insert_char`: `Rope::insert_char` panics when the index
is past the end of the buffer (modelled as `none`, the buffer unchanged);
otherwise the character is inserted and the dirty flag set. -/
def Buffer.insert_char (b : Buffer) (char_idx : Nat) (ch : Char) : Option Buffer :=
  if char_idx ≤ b.rope.length then
    some ⟨b.rope.take char_idx ++ [ch] ++ b.rope.drop char_idx, b.filename, true⟩
  else none

/-- Model of `Buffer::insert`: `Rope::insert` panics when the index is past
the end of the buffer (modelled as `none`); otherwise the text is inserted and
the dirty flag set. -/
def Buffer.insert (b : Buffer) (char_idx : Nat) (text : List Char) : Option Buffer :=
  if char_idx ≤ b.rope.length then
    some ⟨b.rope.take char_idx ++ text ++ b.rope.drop char_idx, b.filename, true⟩
  else none

/-- Model of `Buffer::remove`: `Rope::remove` panics when the range is
inverted or its end is past the end of the buffer (modelled as `none`);
otherwise the half-open range is deleted and the dirty flag set. -/
def Buffer.remove (b : Buffer) (start stop : Nat) : Option Buffer :=
  if start ≤ stop ∧ stop ≤ b.rope.length then
    some ⟨b.rope.take start ++ b.rope.drop stop, b.filename, true⟩
  else none

/-- Model of `Buffer::to_string`. -/
def Buffer.to_string (b : Buffer) : List Char := b.rope

/-- Model of `Buffer::slice`: `Rope::slice` panics on an inverted or
out-of-range range (modelled as `none`). -/
def Buffer.slice (b : Buffer) (start stop : Nat) : Option (List Char) :=
  if start ≤ stop ∧ stop ≤ b.rope.length then
    some ((b.rope.drop start).take (stop - start))
  else none

/-- Model of `Buffer::char_to_line`. -/
def Buffer.char_to_line (b : Buffer) (char_idx : Nat) : Nat := charToLine b.rope char_idx

/-- Model of `Buffer::line_to_char`. -/
def Buffer.line_to_char (b : Buffer) (line_idx : Nat) : Nat := lineToChar b.rope line_idx

/-- Model of `Buffer::line_len_no_eol`: the characters of the line that are
neither `'\n'` nor `'\r'`, counted. -/
def Buffer.line_len_no_eol (b : Buffer) (line_idx : Nat) : Nat :=
  ((getLine b.rope line_idx).filter (fun c => c != '\n' && c != '\r')).length

/-- Model of `Buffer::line_to_last_char`. -/
def Buffer.line_to_last_char (b : Buffer) (line_idx : Nat) : Nat :=
  b.line_to_char line_idx + b.line_len_no_eol line_idx

/-- Model of `Buffer::line_len`. -/
def Buffer.line_len (b : Buffer) (line_idx : Nat) : Nat := (getLine b.rope line_idx).length

/-- Model of `Buffer::index_to_point`. -/
def Buffer.index_to_point (b : Buffer) (char_idx : Nat) : Nat × Nat :=
  let l := b.char_to_line char_idx
  let c := char_idx - b.line_to_char l
  (l, c)

/-- Model of `Buffer::point_to_index`: the line is clamped to the valid line
range, the column to the line's length without terminator. -/
def Buffer.point_to_index (b : Buffer) (point : Nat × Nat) : Nat :=
  let l := min point.1 (b.len_lines - 1)
  let c := min point.2 (b.line_len_no_eol l)
  b.line_to_char l + c

/-- Model of `sdl2::pixels::Color` as used here (`Color::RGB`). -/
structure Color where
  r : Nat
  g : Nat
  b : Nat
deriving DecidableEq

/-- Model of the `DisplayCommand` enum of window.rs. -/
inductive DisplayCommand where
  | Move : Nat → Nat → DisplayCommand
  | Char : Char → Color → DisplayCommand
  | Rect : Nat → Nat → Color → DisplayCommand
deriving DecidableEq

/-- The selection-highlight colour `Color::RGB(142, 132, 155)` of window.rs. -/
def selColor : Color := ⟨142, 132, 155⟩

/-- The caret colour `Color::RGB(242, 232, 255)` of window.rs. -/
def caretColor : Color := ⟨242, 232, 255⟩

/-- The glyph colour `Color::RGB(242, 232, 255)` of window.rs. -/
def textColor : Color := ⟨242, 232, 255⟩

/-- The three font quantities `EditorWindow::draw` reads from the SDL font:
the advance of the space glyph, `Font::height`, and
`Font::recommended_line_spacing`.  All are positive pixel counts. -/
structure FontMetrics where
  advance : Nat
  height : Nat
  line_spacing : Nat

/-- Modelled from the spec: the `View` collaborator (view.rs is not part of
the given sources).  Per §3 of the spec it exposes a caret character index, an
optional selection range `[start, end)`, a first visible line, and a page
length set through `set_page_length`. -/
structure View where
  index : Nat
  selection : Option (Nat × Nat)
  first_visible_line : Nat
  page_length : Nat
deriving DecidableEq

/-- Modelled from the spec: `View::set_page_length` stores the visible-page
length in lines. -/
def View.set_page_length (v : View) (n : Nat) : View := { v with page_length := n }

/-- Modelled from the spec: a fresh `View` starts with the caret at the
buffer start, no selection, and scrolled to the top. -/
def View.new : View := ⟨0, none, 0, 0⟩

/-- Model of the `EditorWindow` state of window.rs. -/
structure EditorWindow where
  views : List View
  buffers : List Buffer
  width : Nat
  height : Nat
  font_height : Nat
  current_view : Nat

/-- The main loop of `EditorWindow::draw`, one step per remaining buffer
character: emits the selection rectangle (guard `start <= idx && end > idx &&
c != '\n'`), then the caret rectangle (guard `idx == view.index()`), then
classifies the character (`'\n'` advances `y` and breaks out — without
incrementing `idx` or resetting `x` — once `y` exceeds the window height;
`'\t'` advances `x` by four advances; `'\r'` does nothing; anything else emits
its glyph and advances `x`).  Returns the emitted commands together with the
final `idx`, `x` and `y` of the loop. -/
def drawLoop (sel : Option (Nat × Nat)) (caret : Nat) (font : FontMetrics) (winHeight : Nat) :
    List Char → Nat → Nat → Nat → List DisplayCommand × Nat × Nat × Nat
  | [], idx, x, y => ([], idx, x, y)
  | c :: rest, idx, x, y =>
    let selCmds : List DisplayCommand :=
      match sel with
      | some (s, e) =>
        if s ≤ idx ∧ idx < e ∧ c ≠ '\n' then
          [DisplayCommand.Move x y, DisplayCommand.Rect (font.advance + 1) font.height selColor]
        else []
      | none => []
    let caretCmds : List DisplayCommand :=
      if idx = caret then [DisplayCommand.Move x y, DisplayCommand.Rect 2 font.height caretColor]
      else []
    let pre := selCmds ++ caretCmds
    if c = '\n' then
      if y + font.line_spacing > winHeight then (pre, idx, x, y + font.line_spacing)
      else
        let r := drawLoop sel caret font winHeight rest (idx + 1) 0 (y + font.line_spacing)
        (pre ++ r.1, r.2)
    else if c = '\t' then
      let r := drawLoop sel caret font winHeight rest (idx + 1) (x + font.advance * 4) y
      (pre ++ r.1, r.2)
    else if c = '\r' then
      let r := drawLoop sel caret font winHeight rest (idx + 1) x y
      (pre ++ r.1, r.2)
    else
      let r := drawLoop sel caret font winHeight rest (idx + 1) (x + font.advance) y
      (pre ++ [DisplayCommand.Move x y, DisplayCommand.Char c textColor] ++ r.1, r.2)

/-- Model of `EditorWindow::draw`: reads `buffers[0]` and the current view
(an out-of-range index panics, modelled as `none`), starts the loop at the
first character of the first visible line, and after the loop emits one caret
rectangle at the current pen position when the loop's final index equals the
caret (the end-of-buffer caret case). -/
def EditorWindow.draw (w : EditorWindow) (font : FontMetrics) : Option (List DisplayCommand) :=
  match w.buffers.head?, w.views[w.current_view]? with
  | some b, some v =>
    let first_char := b.line_to_char v.first_visible_line
    let r := drawLoop v.selection v.index font w.height (b.rope.drop first_char) first_char 0 0
    some (r.1 ++
      (if r.2.1 = v.index then
        [DisplayCommand.Move r.2.2.1 r.2.2.2, DisplayCommand.Rect 2 font.height caretColor]
      else []))
  | _, _ => none

/-- Model of `EditorWindow::resize`: stores the new width and height, computes
`page_length = height / font_height - 1` in `usize` arithmetic (division by
zero and subtraction underflow panic, modelled as `none`), and stores it in
the current view (an out-of-range view index panics, modelled as `none`). -/
def EditorWindow.resize (w : EditorWindow) (width height : Nat) : Option EditorWindow :=
  if w.font_height = 0 then none
  else if height / w.font_height = 0 then none
  else
    match w.views[w.current_view]? with
    | some v =>
      some { w with width := width, height := height,
                    views := w.views.set w.current_view
                      (v.set_page_length (height / w.font_height - 1)) }
    | none => none

/-- Model of `EditorWindow::add_new_view`: pushes a buffer (empty, or built
from the given file contents), creates a view on it and sets its page length
to `height / font_height - 1` in `usize` arithmetic (division by zero and
subtraction underflow panic, modelled as `none`). -/
def EditorWindow.add_new_view (w : EditorWindow) (file : Option (List Char)) : Option EditorWindow :=
  let b := match file with
    | none => Buffer.new
    | some text => Buffer.from_str text
  if w.font_height = 0 then none
  else if w.height / w.font_height = 0 then none
  else
    some { w with buffers := w.buffers ++ [b],
                  views := w.views ++ [View.new.set_page_length (w.height / w.font_height - 1)] }

/-- Number of line breaks in a character sequence under the same semantics as
`splitLines`: each `'\n'`, each `'\r'`, with the pair `"\r\n"` counting as a
single break. -/
def breakCount : List Char → Nat
  | [] => 0
  | c :: rest =>
    if c = '\n' then 1 + breakCount rest
    else if c = '\r' then
      match rest with
      | [] => 1
      | c2 :: rest2 =>
        if c2 = '\n' then 1 + breakCount rest2 else 1 + breakCount (c2 :: rest2)
    else breakCount rest

/-- Number of line-terminator characters of a sequence, in the words of the
line-count claim: every `'\n'` and every `'\r'` counted individually. -/
def termCharCount (s : List Char) : Nat :=
  (s.filter (fun c => c == '\n' || c == '\r')).length

/-- Number of filled rectangles of the given colour in a display list. -/
def rectCount (col : Color) (cmds : List DisplayCommand) : Nat :=
  (cmds.filter fun cmd =>
    match cmd with
    | DisplayCommand.Rect _ _ c => decide (c = col)
    | _ => false).length

/-- Pairs each character with its running buffer index, starting at `i`. -/
def enumChars (i : Nat) : List Char → List (Nat × Char)
  | [] => []
  | c :: rest => (i, c) :: enumChars (i + 1) rest

/-- Whether a character index lies in the optional selection range. -/
def selHit (sel : Option (Nat × Nat)) (i : Nat) : Bool :=
  match sel with
  | some (s, e) => decide (s ≤ i) && decide (i < e)
  | none => false

theorem splitLines_nil : splitLines [] = [[]] := rfl

theorem splitLines_lf (rest : List Char) :
    splitLines ('\n' :: rest) = ['\n'] :: splitLines rest := by
  rw [splitLines.eq_def]; simp

theorem splitLines_cr_nil : splitLines ['\r'] = [['\r'], []] := by
  rw [splitLines.eq_def]; simp

theorem splitLines_crlf (rest : List Char) :
    splitLines ('\r' :: '\n' :: rest) = ['\r', '\n'] :: splitLines rest := by
  rw [splitLines.eq_def]; simp

theorem splitLines_cr (c2 : Char) (rest2 : List Char) (h : c2 ≠ '\n') :
    splitLines ('\r' :: c2 :: rest2) = ['\r'] :: splitLines (c2 :: rest2) := by
  rw [splitLines.eq_def]; simp [h]

theorem splitLines_other (c : Char) (rest : List Char) (h1 : c ≠ '\n') (h2 : c ≠ '\r') :
    splitLines (c :: rest) = (c :: (splitLines rest).headD []) :: (splitLines rest).tail := by
  rw [splitLines.eq_def]; simp [h1, h2]

theorem splitLines_ne_nil (s : List Char) : splitLines s ≠ [] := by
  induction s using splitLines.induct with
  | case1 => simp [splitLines_nil]
  | case2 rest ih => simp [splitLines_lf]
  | case3 => simp [splitLines_cr_nil]
  | case4 rest ih => simp [splitLines_crlf]
  | case5 c2 rest2 h _ ih => simp [splitLines_cr c2 rest2 h]
  | case6 c rest h1 h2 ih => simp [splitLines_other c rest h1 h2]

theorem flatten_splitLines (s : List Char) : (splitLines s).flatten = s := by
  induction s using splitLines.induct with
  | case1 => simp [splitLines_nil]
  | case2 rest ih => simp [splitLines_lf, ih]
  | case3 => simp [splitLines_cr_nil]
  | case4 rest h ih => simp [splitLines_crlf, ih]
  | case5 c2 rest2 h _ ih => simp [splitLines_cr c2 rest2 h, ih]
  | case6 c rest h1 h2 ih =>
    obtain ⟨L, ls, e⟩ := List.exists_cons_of_ne_nil (splitLines_ne_nil rest)
    rw [splitLines_other c rest h1 h2, e]
    rw [e] at ih
    simpa using ih

/-- A sequence of characters containing no line terminator. -/
def noBreak (L : List Char) : Prop := ∀ c ∈ L, c ≠ '\n' ∧ c ≠ '\r'

/-- A non-final line produced by `splitLines`: terminator-free body followed
by one of the three breaks. -/
def IsLine (L : List Char) : Prop :=
  ∃ body brk, L = body ++ brk ∧ noBreak body ∧
    (brk = ['\n'] ∨ brk = ['\r'] ∨ brk = ['\r', '\n'])

/-- Well-formedness of a line decomposition: every line but the last carries
its break, the last line is terminator-free. -/
def LinesWF : List (List Char) → Prop
  | [] => True
  | [L] => noBreak L
  | L :: ls => IsLine L ∧ LinesWF ls

theorem linesWF_singleton (L : List Char) : LinesWF [L] = noBreak L := rfl

theorem linesWF_cons₂ (L L2 : List Char) (ls : List (List Char)) :
    LinesWF (L :: L2 :: ls) = (IsLine L ∧ LinesWF (L2 :: ls)) := rfl

theorem linesWF_cons (L : List Char) (ls : List (List Char)) (hne : ls ≠ [])
    (hL : IsLine L) (hls : LinesWF ls) : LinesWF (L :: ls) := by
  obtain ⟨L2, ls2, rfl⟩ := List.exists_cons_of_ne_nil hne
  rw [linesWF_cons₂]
  exact ⟨hL, hls⟩

theorem linesWF_splitLines (s : List Char) : LinesWF (splitLines s) := by
  induction s using splitLines.induct with
  | case1 =>
    rw [splitLines_nil, linesWF_singleton]
    intro c hc
    simp at hc
  | case2 rest ih =>
    rw [splitLines_lf]
    refine linesWF_cons _ _ (splitLines_ne_nil rest) ⟨[], ['\n'], by simp, ?_, by simp⟩ ih
    intro c hc
    simp at hc
  | case3 =>
    rw [splitLines_cr_nil, linesWF_cons₂, linesWF_singleton]
    exact ⟨⟨[], ['\r'], by simp, by intro c hc; simp at hc, by simp⟩, by intro c hc; simp at hc⟩
  | case4 rest h ih =>
    rw [splitLines_crlf]
    refine linesWF_cons _ _ (splitLines_ne_nil rest)
      ⟨[], ['\r', '\n'], by simp, ?_, by simp⟩ ih
    intro c hc
    simp at hc
  | case5 c2 rest2 h _ ih =>
    rw [splitLines_cr c2 rest2 h]
    refine linesWF_cons _ _ (splitLines_ne_nil (c2 :: rest2))
      ⟨[], ['\r'], by simp, ?_, by simp⟩ ih
    intro c hc
    simp at hc
  | case6 c rest h1 h2 ih =>
    obtain ⟨L, ls, e⟩ := List.exists_cons_of_ne_nil (splitLines_ne_nil rest)
    rw [splitLines_other c rest h1 h2, e]
    rw [e] at ih
    simp only [List.headD_cons, List.tail_cons]
    match ls, ih with
    | [], ih =>
      rw [linesWF_singleton] at ih ⊢
      intro d hd
      rcases List.mem_cons.mp hd with hd | hd
      · subst hd; exact ⟨h1, h2⟩
      · exact ih d hd
    | L2 :: ls2, ih =>
      rw [linesWF_cons₂] at ih ⊢
      obtain ⟨⟨body, brk, hLb, hnb, hbrk⟩, hwf⟩ := ih
      refine ⟨⟨c :: body, brk, by rw [hLb]; simp, ?_, hbrk⟩, hwf⟩
      intro d hd
      rcases List.mem_cons.mp hd with hd | hd
      · subst hd; exact ⟨h1, h2⟩
      · exact hnb d hd

theorem linesWF_getD (ls : List (List Char)) (l : Nat) (hwf : LinesWF ls)
    (h : l + 1 < ls.length) : IsLine (ls.getD l []) := by
  induction ls generalizing l with
  | nil => simp at h
  | cons L tl ih =>
    match tl, h with
    | L2 :: tl2, h =>
      rw [linesWF_cons₂] at hwf
      match l with
      | 0 => exact hwf.1
      | l + 1 =>
        simp only [List.getD_cons_succ]
        exact ih _ hwf.2 (by simpa using h)

theorem linesWF_lastD (ls : List (List Char)) (l : Nat) (hwf : LinesWF ls)
    (h : l + 1 = ls.length) : noBreak (ls.getD l []) := by
  induction ls generalizing l with
  | nil => simp at h
  | cons L tl ih =>
    match tl with
    | [] =>
      match l, h with
      | 0, _ => rw [linesWF_singleton] at hwf; exact hwf
    | L2 :: tl2 =>
      rw [linesWF_cons₂] at hwf
      match l, h with
      | l + 1, h =>
        simp only [List.getD_cons_succ]
        exact ih _ hwf.2 (by simpa using h)

theorem sumLens_nil : sumLens [] = 0 := rfl

theorem sumLens_cons (L : List Char) (ls : List (List Char)) :
    sumLens (L :: ls) = L.length + sumLens ls := by
  simp [sumLens]

theorem length_eq_sumLens (s : List Char) : s.length = sumLens (splitLines s) := by
  conv_lhs => rw [← flatten_splitLines s]
  simp [sumLens, List.length_flatten]

theorem sumLens_take_succ (ls : List (List Char)) (k : Nat) (h : k < ls.length) :
    sumLens (ls.take (k + 1)) = sumLens (ls.take k) + (ls.getD k []).length := by
  rw [List.take_succ, sumLens, List.map_append, List.sum_append]
  rw [List.getElem?_eq_getElem h]
  simp [sumLens, List.getD_eq_getElem?_getD, List.getElem?_eq_getElem h]

theorem sumLens_take_le (ls : List (List Char)) (k : Nat) :
    sumLens (ls.take k) ≤ sumLens ls := by
  conv_rhs => rw [← List.take_append_drop k ls]
  simp only [sumLens, List.map_append, List.sum_append]
  exact Nat.le_add_right _ _

theorem sumLens_take_all (ls : List (List Char)) (k : Nat) (h : ls.length ≤ k) :
    sumLens (ls.take k) = sumLens ls := by
  rw [List.take_of_length_le h]

theorem findLine_nil (idx : Nat) : findLine [] idx = 0 := rfl

theorem findLine_single (L : List Char) (idx : Nat) : findLine [L] idx = 0 := rfl

theorem findLine_cons₂ (L L2 : List Char) (ls : List (List Char)) (idx : Nat) :
    findLine (L :: L2 :: ls) idx =
      if idx < L.length then 0 else 1 + findLine (L2 :: ls) (idx - L.length) := rfl

theorem findLine_lt_length (ls : List (List Char)) (idx : Nat) (h : ls ≠ []) :
    findLine ls idx < ls.length := by
  induction ls generalizing idx with
  | nil => exact absurd rfl h
  | cons L tl ih =>
    match tl with
    | [] => rw [findLine_single]; simp
    | L2 :: tl2 =>
      rw [findLine_cons₂]
      split
      · simp
      · have := ih (idx - L.length) (by simp)
        simp only [List.length_cons] at this ⊢
        omega

theorem take_findLine_le (ls : List (List Char)) (idx : Nat) :
    sumLens (ls.take (findLine ls idx)) ≤ idx := by
  induction ls generalizing idx with
  | nil => simp [findLine_nil, sumLens_nil]
  | cons L tl ih =>
    match tl with
    | [] => simp [findLine_single, sumLens_nil]
    | L2 :: tl2 =>
      rw [findLine_cons₂]
      split
      · simp [sumLens_nil]
      · rename_i hge
        rw [Nat.add_comm, List.take_succ_cons, sumLens_cons]
        have := ih (idx - L.length)
        omega

theorem findLine_lt_next (ls : List (List Char)) (idx : Nat)
    (h : findLine ls idx + 1 < ls.length) :
    idx < sumLens (ls.take (findLine ls idx + 1)) := by
  induction ls generalizing idx with
  | nil => simp at h
  | cons L tl ih =>
    match tl with
    | [] => rw [findLine_single] at h; simp at h
    | L2 :: tl2 =>
      rw [findLine_cons₂] at h ⊢
      split at h
      · rename_i hlt
        rw [if_pos (by assumption)] at *
        simpa [List.take_succ_cons, sumLens_cons, sumLens_nil] using hlt
      · rename_i hge
        rw [if_neg hge]
        rw [Nat.add_comm 1 (findLine (L2 :: tl2) (idx - L.length))] at h ⊢
        rw [List.take_succ_cons, sumLens_cons]
        have := ih (idx - L.length) (by simpa using h)
        omega

theorem line_decomp (s : List Char) (l : Nat) (h : l < (splitLines s).length) :
    ∃ body brk, (splitLines s).getD l [] = body ++ brk ∧ noBreak body ∧
      ((brk = [] ∧ l + 1 = (splitLines s).length) ∨
       ((brk = ['\n'] ∨ brk = ['\r'] ∨ brk = ['\r', '\n']) ∧ l + 1 < (splitLines s).length)) := by
  have hwf := linesWF_splitLines s
  rcases Nat.lt_or_ge (l + 1) (splitLines s).length with hlt | hge
  · obtain ⟨body, brk, hd, hnb, hbrk⟩ := linesWF_getD _ l hwf hlt
    exact ⟨body, brk, hd, hnb, Or.inr ⟨hbrk, hlt⟩⟩
  · have heq : l + 1 = (splitLines s).length := by omega
    exact ⟨(splitLines s).getD l [], [], by simp, linesWF_lastD _ l hwf heq, Or.inl ⟨rfl, heq⟩⟩

theorem filter_line_length (body brk : List Char) (hnb : noBreak body)
    (hbrk : brk = [] ∨ brk = ['\n'] ∨ brk = ['\r'] ∨ brk = ['\r', '\n']) :
    ((body ++ brk).filter (fun c => c != '\n' && c != '\r')).length = body.length := by
  rw [List.filter_append]
  have h1 : body.filter (fun c => c != '\n' && c != '\r') = body := by
    rw [List.filter_eq_self]
    intro a ha
    obtain ⟨hn, hr⟩ := hnb a ha
    simp [hn, hr]
  have h2 : brk.filter (fun c => c != '\n' && c != '\r') = [] := by
    rcases hbrk with rfl | rfl | rfl | rfl <;> rfl
  rw [h1, h2]
  simp

theorem flatten_getElem? (ls : List (List Char)) (l j : Nat) (hl : l < ls.length)
    (hj : j < (ls.getD l []).length) :
    ls.flatten[sumLens (ls.take l) + j]? = (ls.getD l [])[j]? := by
  induction ls generalizing l with
  | nil => simp at hl
  | cons L tl ih =>
    match l with
    | 0 =>
      simp only [List.take_zero, sumLens_nil, Nat.zero_add, List.getD_cons_zero] at hj ⊢
      rw [List.flatten_cons, List.getElem?_append, if_pos hj]
    | l + 1 =>
      simp only [List.getD_cons_succ] at hj ⊢
      rw [List.take_succ_cons, sumLens_cons, List.flatten_cons,
        List.getElem?_append_right (by omega)]
      have harith : L.length + sumLens (tl.take l) + j - L.length = sumLens (tl.take l) + j := by
        omega
      rw [harith]
      exact ih l (by simpa using hl) hj

theorem rope_getElem?_line (s : List Char) (l j : Nat) (hl : l < (splitLines s).length)
    (hj : j < ((splitLines s).getD l []).length) :
    s[sumLens ((splitLines s).take l) + j]? = ((splitLines s).getD l [])[j]? := by
  have h := flatten_getElem? (splitLines s) l j hl hj
  rwa [flatten_splitLines s] at h

theorem last_char_le_length (s : List Char) (l : Nat) (h : l < (splitLines s).length) :
    sumLens ((splitLines s).take l)
      + (((splitLines s).getD l []).filter (fun c => c != '\n' && c != '\r')).length
      ≤ s.length := by
  obtain ⟨body, brk, hdec, hnb, hcase⟩ := line_decomp s l h
  have hf : (((splitLines s).getD l []).filter (fun c => c != '\n' && c != '\r')).length
      = body.length := by
    rw [hdec]
    refine filter_line_length body brk hnb ?_
    rcases hcase with ⟨hb, _⟩ | ⟨hb, _⟩
    · exact Or.inl hb
    · exact Or.inr hb
  have hsucc := sumLens_take_succ (splitLines s) l h
  have hlen := length_eq_sumLens s
  have hle := sumLens_take_le (splitLines s) (l + 1)
  have hbl : body.length ≤ ((splitLines s).getD l []).length := by
    rw [hdec]
    simp
  omega
theorem col_le_body (s : List Char) (idx : Nat)
    (h1 : idx ≤ s.length)
    (h2 : ¬ (0 < idx ∧ s[idx - 1]? = some '\r' ∧ s[idx]? = some '\n'))
    {body brk : List Char}
    (hdec : (splitLines s).getD (findLine (splitLines s) idx) [] = body ++ brk)
    (hcase : (brk = [] ∧ findLine (splitLines s) idx + 1 = (splitLines s).length) ∨
      ((brk = ['\n'] ∨ brk = ['\r'] ∨ brk = ['\r', '\n']) ∧
        findLine (splitLines s) idx + 1 < (splitLines s).length)) :
    idx - sumLens ((splitLines s).take (findLine (splitLines s) idx)) ≤ body.length := by
  set l := findLine (splitLines s) idx with hldef
  have hne := splitLines_ne_nil s
  have hllt : l < (splitLines s).length := findLine_lt_length _ idx hne
  have hstart : sumLens ((splitLines s).take l) ≤ idx := take_findLine_le _ idx
  rcases hcase with ⟨hbrk, hlast⟩ | ⟨hbrk, hnl⟩
  · have hall : (splitLines s).take (l + 1) = splitLines s := List.take_of_length_le (by omega)
    have hsucc := sumLens_take_succ (splitLines s) l hllt
    have hlen := length_eq_sumLens s
    have hbl : ((splitLines s).getD l []).length = body.length := by
      rw [hdec, hbrk]
      simp
    rw [hall] at hsucc
    omega
  · have hnext : idx < sumLens ((splitLines s).take (l + 1)) :=
      findLine_lt_next (splitLines s) idx (by omega)
    have hsucc := sumLens_take_succ (splitLines s) l hllt
    have hbl : ((splitLines s).getD l []).length = body.length + brk.length := by
      rw [hdec]
      simp
    rcases hbrk with rfl | rfl | rfl
    · simp only [List.length_cons, List.length_nil] at hbl
      omega
    · simp only [List.length_cons, List.length_nil] at hbl
      omega
    · simp only [List.length_cons, List.length_nil] at hbl
      by_cases hc : idx - sumLens ((splitLines s).take l) ≤ body.length
      · exact hc
      · exfalso
        have hidx : idx = sumLens ((splitLines s).take l) + body.length + 1 := by omega
        have hr : s[sumLens ((splitLines s).take l) + body.length]? = some '\r' := by
          have hpos := rope_getElem?_line s l body.length hllt (by omega)
          rw [hpos, hdec, List.getElem?_append_right (Nat.le_refl body.length)]
          simp
        have hn : s[sumLens ((splitLines s).take l) + body.length + 1]? = some '\n' := by
          have hpos := rope_getElem?_line s l (body.length + 1) hllt (by omega)
          rw [← Nat.add_assoc] at hpos
          rw [hpos, hdec, List.getElem?_append_right (by omega)]
          have harith : body.length + 1 - body.length = 1 := by omega
          rw [harith]
          simp
        refine h2 ⟨by omega, ?_, ?_⟩
        · have harith : idx - 1 = sumLens ((splitLines s).take l) + body.length := by omega
          rw [harith]
          exact hr
        · rw [hidx]
          exact hn

/-- C1 (amended): the round trip holds for every in-range index that is not
the position of the `'\n'` of a `"\r\n"` pair. -/
theorem point_roundtrip_no_crlf (b : Buffer) (idx : Nat)
    (h1 : idx ≤ b.len_chars)
    (h2 : ¬ (0 < idx ∧ b.rope[idx - 1]? = some '\r' ∧ b.rope[idx]? = some '\n')) :
    b.point_to_index (b.index_to_point idx) = idx := by
  have hne := splitLines_ne_nil b.rope
  have hlen1 : 1 ≤ (splitLines b.rope).length := by
    cases h : splitLines b.rope with
    | nil => exact absurd h hne
    | cons L ls => simp
  have hllt : findLine (splitLines b.rope) idx < (splitLines b.rope).length :=
    findLine_lt_length _ idx hne
  have hstart : sumLens ((splitLines b.rope).take (findLine (splitLines b.rope) idx)) ≤ idx :=
    take_findLine_le _ idx
  obtain ⟨body, brk, hdec, hnb, hcase⟩ := line_decomp b.rope _ hllt
  have hcol := col_le_body b.rope idx h1 h2 hdec hcase
  simp only [Buffer.point_to_index, Buffer.index_to_point, Buffer.char_to_line,
    Buffer.line_to_char, Buffer.len_lines, Buffer.line_len_no_eol, charToLine, lineToChar,
    lenLines, getLine]
  rw [Nat.min_eq_left (by omega)]
  have hf : (((splitLines b.rope).getD (findLine (splitLines b.rope) idx) []).filter
      (fun c => c != '\n' && c != '\r')).length = body.length := by
    rw [hdec]
    refine filter_line_length body brk hnb ?_
    rcases hcase with ⟨hb, _⟩ | ⟨hb, _⟩
    · exact Or.inl hb
    · exact Or.inr hb
  rw [hf, Nat.min_eq_left hcol]
  omega

/-- C1 counterexample: on the buffer built from `"a\r\nb"`, index 2 (the
`'\n'` of the `"\r\n"` terminator) is in range but does not survive the round
trip: `index_to_point 2 = (0, 2)` and the column is clamped back to 1. -/
theorem point_roundtrip_cex :
    2 ≤ (Buffer.from_str ('a' :: '\r' :: '\n' :: 'b' :: [])).len_chars ∧
    ¬ ((Buffer.from_str ('a' :: '\r' :: '\n' :: 'b' :: [])).point_to_index
        ((Buffer.from_str ('a' :: '\r' :: '\n' :: 'b' :: [])).index_to_point 2) = 2) := by
  decide

/-- Witness for the amended round-trip theorem at index 7 of the test text. -/
theorem point_roundtrip_no_crlf_witness :
    (7 ≤ (Buffer.from_str "text\nplops\ntoto  ".toList).len_chars ∧
      ¬ (0 < 7 ∧ (Buffer.from_str "text\nplops\ntoto  ".toList).rope[7 - 1]? = some '\r' ∧
          (Buffer.from_str "text\nplops\ntoto  ".toList).rope[7]? = some '\n')) ∧
    (Buffer.from_str "text\nplops\ntoto  ".toList).point_to_index
      ((Buffer.from_str "text\nplops\ntoto  ".toList).index_to_point 7) = 7 :=
  ⟨⟨by decide, by decide⟩, point_roundtrip_no_crlf _ 7 (by decide) (by decide)⟩

/-- C2: `point_to_index` is total with clamping semantics — it equals
`line_to_char` of the clamped line plus the clamped column, its result is
always an in-range index, and on `"text\nplops\ntoto  "` it takes the three
out-of-range example points to 4, 12 and 17. -/
theorem point_to_index_clamps :
    (∀ (b : Buffer) (p : Nat × Nat),
      b.point_to_index p =
        b.line_to_char (min p.1 (b.len_lines - 1)) +
          min p.2 (b.line_len_no_eol (min p.1 (b.len_lines - 1)))) ∧
    (∀ (b : Buffer) (p : Nat × Nat), b.point_to_index p ≤ b.len_chars) ∧
    (Buffer.from_str "text\nplops\ntoto  ".toList).point_to_index (0, 5) = 4 ∧
    (Buffer.from_str "text\nplops\ntoto  ".toList).point_to_index (4, 1) = 12 ∧
    (Buffer.from_str "text\nplops\ntoto  ".toList).point_to_index (4, 6) = 17 := by
  refine ⟨fun b p => rfl, fun b p => ?_, by decide, by decide, by decide⟩
  have hne := splitLines_ne_nil b.rope
  have hlen1 : 0 < (splitLines b.rope).length := List.length_pos.mpr hne
  have hllt : min p.1 ((splitLines b.rope).length - 1) < (splitLines b.rope).length := by
    omega
  have hlast := last_char_le_length b.rope (min p.1 ((splitLines b.rope).length - 1)) hllt
  simp only [Buffer.point_to_index, Buffer.line_to_char, Buffer.line_len_no_eol,
    Buffer.len_lines, Buffer.len_chars, lineToChar, lenLines, getLine]
  omega

/-- C8: for every valid line, `line_to_last_char` is `line_to_char` plus
`line_len_no_eol`, no character strictly before it and at or after the line
start is a terminator, and it points either at the end of the buffer (final
line) or at the first character of the line's terminator. -/
theorem line_to_last_char_spec (b : Buffer) (l : Nat) (h : l < b.len_lines) :
    b.line_to_last_char l = b.line_to_char l + b.line_len_no_eol l ∧
    (∀ i c, b.line_to_char l ≤ i → i < b.line_to_last_char l →
      b.rope[i]? = some c → c ≠ '\n' ∧ c ≠ '\r') ∧
    (b.line_to_last_char l = b.len_chars ∨
      ∃ c, b.rope[b.line_to_last_char l]? = some c ∧ (c = '\n' ∨ c = '\r')) := by
  have hllt : l < (splitLines b.rope).length := by
    simpa [Buffer.len_lines, lenLines] using h
  obtain ⟨body, brk, hdec, hnb, hcase⟩ := line_decomp b.rope l hllt
  have hf : b.line_len_no_eol l = body.length := by
    simp only [Buffer.line_len_no_eol, getLine]
    rw [hdec]
    refine filter_line_length body brk hnb ?_
    rcases hcase with ⟨hb, _⟩ | ⟨hb, _⟩
    · exact Or.inl hb
    · exact Or.inr hb
  have hstart_def : b.line_to_char l = sumLens ((splitLines b.rope).take l) := rfl
  refine ⟨rfl, ?_, ?_⟩
  · intro i c hle hlt hget
    have hjlt : i - b.line_to_char l < body.length := by
      have := hf
      simp only [Buffer.line_to_last_char] at hlt
      omega
    have hgetj : b.rope[sumLens ((splitLines b.rope).take l) + (i - b.line_to_char l)]?
        = ((splitLines b.rope).getD l [])[i - b.line_to_char l]? := by
      refine rope_getElem?_line b.rope l _ hllt ?_
      rw [hdec]
      simp only [List.length_append]
      omega
    have hieq : i = sumLens ((splitLines b.rope).take l) + (i - b.line_to_char l) := by
      rw [← hstart_def]
      omega
    rw [hieq, hgetj, hdec, List.getElem?_append, if_pos hjlt] at hget
    obtain ⟨hjlt2, hcval⟩ := List.getElem?_eq_some_iff.mp hget
    exact hnb c (hcval ▸ List.getElem_mem hjlt2)
  · rcases hcase with ⟨hbrk, hlast⟩ | ⟨hbrk, hnl⟩
    · left
      have hsucc := sumLens_take_succ (splitLines b.rope) l hllt
      have hall : (splitLines b.rope).take (l + 1) = splitLines b.rope :=
        List.take_of_length_le (by omega)
      have hlen := length_eq_sumLens b.rope
      have hbl : ((splitLines b.rope).getD l []).length = body.length := by
        rw [hdec, hbrk]
        simp
      simp only [Buffer.line_to_last_char, Buffer.len_chars, hstart_def, hf]
      rw [hall] at hsucc
      omega
    · right
      have hbrkpos : 0 < brk.length := by
        rcases hbrk with rfl | rfl | rfl <;> simp
      have hterm : b.rope[sumLens ((splitLines b.rope).take l) + body.length]?
          = ((splitLines b.rope).getD l [])[body.length]? := by
        refine rope_getElem?_line b.rope l body.length hllt ?_
        rw [hdec]
        simp only [List.length_append]
        omega
      rw [hdec, List.getElem?_append_right (Nat.le_refl body.length), Nat.sub_self] at hterm
      have hlast_eq : b.line_to_last_char l
          = sumLens ((splitLines b.rope).take l) + body.length := by
        simp only [Buffer.line_to_last_char, hstart_def, hf]
      rcases hbrk with rfl | rfl | rfl
      · exact ⟨'\n', by rw [hlast_eq]; simpa using hterm, Or.inl rfl⟩
      · exact ⟨'\r', by rw [hlast_eq]; simpa using hterm, Or.inr rfl⟩
      · exact ⟨'\r', by rw [hlast_eq]; simpa using hterm, Or.inr rfl⟩

/-- Witness for the last-char theorem on line 1 of the test text. -/
theorem line_to_last_char_spec_witness :
    (1 < (Buffer.from_str "text\nplops\ntoto  ".toList).len_lines) ∧
    ((Buffer.from_str "text\nplops\ntoto  ".toList).line_to_last_char 1 =
        (Buffer.from_str "text\nplops\ntoto  ".toList).len_chars ∨
      ∃ c, (Buffer.from_str "text\nplops\ntoto  ".toList).rope[
          (Buffer.from_str "text\nplops\ntoto  ".toList).line_to_last_char 1]? = some c ∧
        (c = '\n' ∨ c = '\r')) :=
  ⟨by decide, (line_to_last_char_spec (Buffer.from_str "text\nplops\ntoto  ".toList) 1
    (by decide)).2.2⟩

theorem breakCount_nil : breakCount [] = 0 := rfl

theorem breakCount_lf (rest : List Char) : breakCount ('\n' :: rest) = 1 + breakCount rest := by
  rw [breakCount.eq_def]; simp

theorem breakCount_cr_nil : breakCount ['\r'] = 1 := by
  rw [breakCount.eq_def]; simp

theorem breakCount_crlf (rest : List Char) :
    breakCount ('\r' :: '\n' :: rest) = 1 + breakCount rest := by
  rw [breakCount.eq_def]; simp

theorem breakCount_cr (c2 : Char) (rest2 : List Char) (h : c2 ≠ '\n') :
    breakCount ('\r' :: c2 :: rest2) = 1 + breakCount (c2 :: rest2) := by
  rw [breakCount.eq_def]; simp [h]

theorem breakCount_other (c : Char) (rest : List Char) (h1 : c ≠ '\n') (h2 : c ≠ '\r') :
    breakCount (c :: rest) = breakCount rest := by
  rw [breakCount.eq_def]; simp [h1, h2]

theorem lenLines_eq_breakCount (s : List Char) : lenLines s = breakCount s + 1 := by
  induction s using splitLines.induct with
  | case1 => simp [lenLines, splitLines_nil, breakCount_nil]
  | case2 rest ih =>
    simp only [lenLines, splitLines_lf, List.length_cons, breakCount_lf] at *
    omega
  | case3 => simp [lenLines, splitLines_cr_nil, breakCount_cr_nil]
  | case4 rest h ih =>
    simp only [lenLines, splitLines_crlf, List.length_cons, breakCount_crlf] at *
    omega
  | case5 c2 rest2 h _ ih =>
    simp only [lenLines, splitLines_cr c2 rest2 h, List.length_cons,
      breakCount_cr c2 rest2 h] at *
    omega
  | case6 c rest h1 h2 ih =>
    obtain ⟨L, ls, e⟩ := List.exists_cons_of_ne_nil (splitLines_ne_nil rest)
    simp only [lenLines, splitLines_other c rest h1 h2, breakCount_other c rest h1 h2, e,
      List.length_cons, List.headD_cons, List.tail_cons] at *
    omega

theorem splitLines_append_break (c : Char) (hc : c = '\n' ∨ c = '\r') (s : List Char) :
    (splitLines (s ++ [c])).getLast? = some [] ∧ 2 ≤ (splitLines (s ++ [c])).length := by
  have step : ∀ (L : List Char) (ls : List (List Char)),
      ls.getLast? = some [] ∧ 2 ≤ ls.length →
      ((L :: ls).getLast? = some [] ∧ 2 ≤ (L :: ls).length) := by
    intro L ls h
    obtain ⟨b, t, rfl⟩ := List.exists_cons_of_ne_nil
      (l := ls) (by intro hn; rw [hn] at h; simp at h)
    refine ⟨by rw [List.getLast?_cons_cons]; exact h.1, by simp⟩
  induction s using splitLines.induct with
  | case1 =>
    rcases hc with rfl | rfl
    · simp [splitLines_lf, splitLines_nil]
    · simp [splitLines_cr_nil]
  | case2 rest ih =>
    rw [List.cons_append, splitLines_lf]
    exact step _ _ ih
  | case3 =>
    rcases hc with rfl | rfl
    · rw [show ('\r' :: []) ++ ['\n'] = '\r' :: '\n' :: [] by rfl, splitLines_crlf]
      simp [splitLines_nil]
    · rw [show ('\r' :: []) ++ ['\r'] = '\r' :: '\r' :: [] by rfl,
        splitLines_cr '\r' [] (by decide)]
      simp [splitLines_cr_nil]
  | case4 rest h ih =>
    rw [List.cons_append, List.cons_append, splitLines_crlf]
    exact step _ _ ih
  | case5 c2 rest2 h _ ih =>
    rw [List.cons_append, List.cons_append, splitLines_cr c2 (rest2 ++ [c]) h]
    rw [List.cons_append] at ih
    exact step _ _ ih
  | case6 c' rest h1 h2 ih =>
    rw [List.cons_append, splitLines_other c' (rest ++ [c]) h1 h2]
    obtain ⟨L, ls, e⟩ := List.exists_cons_of_ne_nil (splitLines_ne_nil (rest ++ [c]))
    rw [e] at ih ⊢
    obtain ⟨b, t, rfl⟩ := List.exists_cons_of_ne_nil
      (l := ls) (by intro hn; rw [hn] at ih; simp at ih)
    simp only [List.headD_cons, List.tail_cons]
    refine ⟨?_, by simp⟩
    rw [List.getLast?_cons_cons]
    rw [List.getLast?_cons_cons] at ih
    exact ih.1

/-- C3 (amended): the line count of a buffer built from a string is the
number of line breaks plus one, where a `"\r\n"` pair counts as a single
break; the line count is always at least one; and a string ending in a
terminator character has a final empty line. -/
theorem len_lines_break_count :
    (∀ text, (Buffer.from_str text).len_lines = breakCount text + 1) ∧
    (∀ b : Buffer, 1 ≤ b.len_lines) ∧
    (∀ text c, (c = '\n' ∨ c = '\r') →
      getLine (text ++ [c]) (lenLines (text ++ [c]) - 1) = []) := by
  refine ⟨fun text => lenLines_eq_breakCount text, ?_, ?_⟩
  · intro b
    have := List.length_pos.mpr (splitLines_ne_nil b.rope)
    simp only [Buffer.len_lines, lenLines]
    omega
  · intro text c hc
    obtain ⟨hlast, hlen⟩ := splitLines_append_break c hc text
    rw [List.getLast?_eq_getElem?] at hlast
    simp only [getLine, lenLines, List.getD_eq_getElem?_getD, hlast]
    rfl

/-- C3 counterexample: `"a\r\nb"` contains two terminator characters but has
two lines, not three — the `"\r\n"` pair is a single line break. -/
theorem len_lines_term_chars_cex :
    ¬ ((Buffer.from_str ('a' :: '\r' :: '\n' :: 'b' :: [])).len_lines
        = termCharCount ('a' :: '\r' :: '\n' :: 'b' :: []) + 1) := by
  decide

/-- Witness for the trailing-terminator clause of the line-count theorem. -/
theorem len_lines_break_count_witness :
    (('\n' : Char) = '\n' ∨ ('\n' : Char) = '\r') ∧
    getLine ("ab".toList ++ ['\n']) (lenLines ("ab".toList ++ ['\n']) - 1) = [] :=
  ⟨Or.inl rfl, len_lines_break_count.2.2 "ab".toList '\n' (Or.inl rfl)⟩

/-- C6: insertion with an in-range index succeeds, sets the dirty flag and
splices the text in; an index past the end fails explicitly (a ropey bounds
panic, modelled `none`) producing no mutated state at all. -/
theorem insert_bounds (b : Buffer) (idx : Nat) (text : List Char) (ch : Char) :
    (idx ≤ b.len_chars →
      b.insert idx text = some ⟨b.rope.take idx ++ text ++ b.rope.drop idx, b.filename, true⟩ ∧
      b.insert_char idx ch =
        some ⟨b.rope.take idx ++ [ch] ++ b.rope.drop idx, b.filename, true⟩) ∧
    (b.len_chars < idx → b.insert idx text = none ∧ b.insert_char idx ch = none) := by
  simp only [Buffer.insert, Buffer.insert_char, Buffer.len_chars]
  constructor
  · intro h
    rw [if_pos h, if_pos h]
    exact ⟨rfl, rfl⟩
  · intro h
    rw [if_neg (by omega), if_neg (by omega)]
    exact ⟨rfl, rfl⟩

/-- Witness for the insertion bounds theorem, at indices 1 and 5 of `"ab"`. -/
theorem insert_bounds_witness :
    ((1 : Nat) ≤ (Buffer.from_str "ab".toList).len_chars ∧
      ((Buffer.from_str "ab".toList).insert 1 "xy".toList =
        some ⟨(Buffer.from_str "ab".toList).rope.take 1 ++ "xy".toList ++
          (Buffer.from_str "ab".toList).rope.drop 1,
          (Buffer.from_str "ab".toList).filename, true⟩ ∧
      (Buffer.from_str "ab".toList).insert_char 1 'z' =
        some ⟨(Buffer.from_str "ab".toList).rope.take 1 ++ ['z'] ++
          (Buffer.from_str "ab".toList).rope.drop 1,
          (Buffer.from_str "ab".toList).filename, true⟩)) ∧
    ((Buffer.from_str "ab".toList).len_chars < 5 ∧
      ((Buffer.from_str "ab".toList).insert 5 "xy".toList = none ∧
       (Buffer.from_str "ab".toList).insert_char 5 'z' = none)) :=
  ⟨⟨by decide, (insert_bounds (Buffer.from_str "ab".toList) 1 "xy".toList 'z').1 (by decide)⟩,
   ⟨by decide, (insert_bounds (Buffer.from_str "ab".toList) 5 "xy".toList 'z').2 (by decide)⟩⟩

/-- C7: removing a valid range and re-inserting the removed slice at the same
position restores the buffer content exactly. -/
theorem remove_insert_roundtrip (b : Buffer) (a c : Nat) (h1 : a ≤ c) (h2 : c ≤ b.len_chars) :
    ∃ t b1 b2, b.slice a c = some t ∧ b.remove a c = some b1 ∧ b1.insert a t = some b2 ∧
      b2.to_string = b.to_string := by
  simp only [Buffer.len_chars] at h2
  have hs : b.slice a c = some ((b.rope.drop a).take (c - a)) := by
    rw [Buffer.slice, if_pos ⟨h1, h2⟩]
  have hr : b.remove a c = some ⟨b.rope.take a ++ b.rope.drop c, b.filename, true⟩ := by
    rw [Buffer.remove, if_pos ⟨h1, h2⟩]
  have hlen_take : (b.rope.take a).length = a := by
    rw [List.length_take]
    omega
  have hins : a ≤ (b.rope.take a ++ b.rope.drop c).length := by
    rw [List.length_append, hlen_take]
    omega
  have hi : Buffer.insert ⟨b.rope.take a ++ b.rope.drop c, b.filename, true⟩ a
      ((b.rope.drop a).take (c - a)) =
      some ⟨(b.rope.take a ++ b.rope.drop c).take a ++ (b.rope.drop a).take (c - a) ++
        (b.rope.take a ++ b.rope.drop c).drop a, b.filename, true⟩ := by
    simp only [Buffer.insert]
    rw [if_pos hins]
  have hcontent : (Buffer.mk ((b.rope.take a ++ b.rope.drop c).take a ++
      (b.rope.drop a).take (c - a) ++ (b.rope.take a ++ b.rope.drop c).drop a)
      b.filename true).to_string = b.to_string := by
    simp only [Buffer.to_string]
    have ht : (b.rope.take a ++ b.rope.drop c).take a = b.rope.take a :=
      List.take_left' hlen_take
    have hd : (b.rope.take a ++ b.rope.drop c).drop a = b.rope.drop c :=
      List.drop_left' hlen_take
    rw [ht, hd]
    have hjoin : (b.rope.drop a).take (c - a) ++ b.rope.drop c = b.rope.drop a := by
      have hdd : b.rope.drop c = (b.rope.drop a).drop (c - a) := by
        rw [List.drop_drop]
        congr 1
        omega
      rw [hdd, List.take_append_drop]
    rw [List.append_assoc, hjoin, List.take_append_drop]
  exact ⟨_, _, _, hs, hr, hi, hcontent⟩

/-- Witness for the remove-insert round trip on `"abcd"` with the range
`1..3`. -/
theorem remove_insert_roundtrip_witness :
    ((1 : Nat) ≤ 3 ∧ 3 ≤ (Buffer.from_str "abcd".toList).len_chars) ∧
    ∃ t b1 b2, (Buffer.from_str "abcd".toList).slice 1 3 = some t ∧
      (Buffer.from_str "abcd".toList).remove 1 3 = some b1 ∧ b1.insert 1 t = some b2 ∧
      b2.to_string = (Buffer.from_str "abcd".toList).to_string :=
  ⟨⟨by decide, by decide⟩,
   remove_insert_roundtrip (Buffer.from_str "abcd".toList) 1 3 (by decide) (by decide)⟩

/-- C9: a resize stores the new width and height and sets the current view's
page length to `height / font_height - 1`. -/
theorem resize_page_length (w : EditorWindow) (width height : Nat) (v : View)
    (hv : w.views[w.current_view]? = some v)
    (hfh : w.font_height ≠ 0) (hq : height / w.font_height ≠ 0) :
    ∃ w', w.resize width height = some w' ∧ w'.width = width ∧ w'.height = height ∧
      w'.views[w.current_view]? =
        some (v.set_page_length (height / w.font_height - 1)) := by
  have hlt : w.current_view < w.views.length := (List.getElem?_eq_some_iff.mp hv).1
  have hres : w.resize width height =
      some { w with
             width := width
             height := height
             views := w.views.set w.current_view
               (v.set_page_length (height / w.font_height - 1)) } := by
    rw [EditorWindow.resize, if_neg hfh, if_neg hq, hv]
  refine ⟨_, hres, rfl, rfl, ?_⟩
  show (w.views.set w.current_view
      (v.set_page_length (height / w.font_height - 1)))[w.current_view]? = _
  rw [List.getElem?_set_self hlt]

/-- Witness for the resize theorem: a 600-pixel-high window with 15-pixel
line spacing gets page length `600 / 15 - 1 = 39`. -/
theorem resize_page_length_witness :
    ((⟨[View.new], [], 800, 480, 15, 0⟩ : EditorWindow).views[
        (⟨[View.new], [], 800, 480, 15, 0⟩ : EditorWindow).current_view]? = some View.new ∧
      (⟨[View.new], [], 800, 480, 15, 0⟩ : EditorWindow).font_height ≠ 0 ∧
      (600 : Nat) / (⟨[View.new], [], 800, 480, 15, 0⟩ : EditorWindow).font_height ≠ 0) ∧
    (∃ w', (⟨[View.new], [], 800, 480, 15, 0⟩ : EditorWindow).resize 800 600 = some w' ∧
      w'.width = 800 ∧ w'.height = 600 ∧
      w'.views[(⟨[View.new], [], 800, 480, 15, 0⟩ : EditorWindow).current_view]? =
        some (View.new.set_page_length (600 / 15 - 1))) ∧
    (600 : Nat) / 15 - 1 = 39 :=
  ⟨⟨rfl, by decide, by decide⟩,
   resize_page_length ⟨[View.new], [], 800, 480, 15, 0⟩ 800 600 View.new rfl
     (by decide) (by decide),
   by decide⟩

/-- C10: the page-length computation `height / font_height - 1` is `usize`
arithmetic; whenever the height is below the font height the quotient is zero
and the subtraction underflows, so both `resize` and `add_new_view` fail
instead of producing a page length, and conversely they can only succeed when
the height is at least the font height. -/
theorem page_length_underflow (w : EditorWindow) (width height : Nat)
    (file : Option (List Char)) :
    (height < w.font_height → w.resize width height = none) ∧
    (∀ w', w.resize width height = some w' → w.font_height ≤ height) ∧
    (w.height < w.font_height → w.add_new_view file = none) ∧
    (∀ w', w.add_new_view file = some w' → w.font_height ≤ w.height) := by
  refine ⟨?_, ?_, ?_, ?_⟩
  · intro h
    rw [EditorWindow.resize]
    by_cases hf : w.font_height = 0
    · rw [if_pos hf]
    · rw [if_neg hf, if_pos (Nat.div_eq_of_lt h)]
  · intro w' h
    rw [EditorWindow.resize] at h
    by_cases hf : w.font_height = 0
    · rw [if_pos hf] at h
      simp at h
    · rw [if_neg hf] at h
      by_cases hq : height / w.font_height = 0
      · rw [if_pos hq] at h
        simp at h
      · have hx : ¬ height < w.font_height := fun hlt => hq (Nat.div_eq_of_lt hlt)
        omega
  · intro h
    simp only [EditorWindow.add_new_view]
    by_cases hf : w.font_height = 0
    · rw [if_pos hf]
    · rw [if_neg hf, if_pos (Nat.div_eq_of_lt h)]
  · intro w' h
    simp only [EditorWindow.add_new_view] at h
    by_cases hf : w.font_height = 0
    · rw [if_pos hf] at h
      simp at h
    · rw [if_neg hf] at h
      by_cases hq : w.height / w.font_height = 0
      · rw [if_pos hq] at h
        simp at h
      · have hx : ¬ w.height < w.font_height := fun hlt => hq (Nat.div_eq_of_lt hlt)
        omega

/-- Witness for the underflow theorem: a 10-pixel-high resize of a window
with 15-pixel font height fails. -/
theorem page_length_underflow_witness :
    ((10 : Nat) < (⟨[View.new], [], 800, 480, 15, 0⟩ : EditorWindow).font_height) ∧
    (⟨[View.new], [], 800, 480, 15, 0⟩ : EditorWindow).resize 800 10 = none :=
  ⟨by decide,
   (page_length_underflow ⟨[View.new], [], 800, 480, 15, 0⟩ 800 10 none).1 (by decide)⟩

theorem rectCount_append (col : Color) (a b : List DisplayCommand) :
    rectCount col (a ++ b) = rectCount col a + rectCount col b := by
  simp [rectCount, List.filter_append]

theorem rectCount_selCmds (x y w h : Nat) :
    rectCount selColor [DisplayCommand.Move x y, DisplayCommand.Rect w h selColor] = 1 := by
  simp [rectCount]

theorem rectCount_caretCmds (x y h : Nat) :
    rectCount selColor [DisplayCommand.Move x y, DisplayCommand.Rect 2 h caretColor] = 0 := by
  simp +decide [rectCount, caretColor, selColor]

theorem rectCount_glyph (x y : Nat) (c : Char) :
    rectCount selColor [DisplayCommand.Move x y, DisplayCommand.Char c textColor] = 0 := by
  simp [rectCount]

/-- In the render loop, when no vertical clipping occurs, the number of
selection-highlight rectangles equals the number of iterated characters whose
index lies in the selection and which are not `'\n'` (a `'\r'` in the
selection also gets a rectangle). -/
theorem drawLoop_sel_rects (sel : Option (Nat × Nat)) (caret : Nat) (font : FontMetrics)
    (H : Nat) (cs : List Char) (idx x y : Nat)
    (hclip : y + font.line_spacing * cs.count '\n' ≤ H) :
    rectCount selColor (drawLoop sel caret font H cs idx x y).1 =
      ((enumChars idx cs).filter fun p => selHit sel p.1 && decide (p.2 ≠ '\n')).length := by
  induction cs generalizing idx x y with
  | nil => simp [drawLoop, enumChars, rectCount]
  | cons c rest ih =>
    have hcaret0 : ∀ x' y', rectCount selColor
        (if idx = caret then
          [DisplayCommand.Move x' y', DisplayCommand.Rect 2 font.height caretColor]
        else []) = 0 := by
      intro x' y'
      split
      · exact rectCount_caretCmds _ _ _
      · rfl
    have hsel : ∀ x' y', rectCount selColor
        ((match sel with
          | some (s, e) =>
            if s ≤ idx ∧ idx < e ∧ c ≠ '\n' then
              [DisplayCommand.Move x' y',
                DisplayCommand.Rect (font.advance + 1) font.height selColor]
            else []
          | none => []) : List DisplayCommand) =
        (if (selHit sel idx && decide (c ≠ '\n')) = true then 1 else 0) := by
      intro x' y'
      rcases sel with _ | ⟨st, en⟩
      · simp [selHit, rectCount]
      · simp only [selHit]
        by_cases h1 : st ≤ idx
        · by_cases h2 : idx < en
          · by_cases h3 : c = '\n'
            · rw [if_neg (by simp [h3])]
              simp [h1, h2, h3, rectCount]
            · rw [if_pos ⟨h1, h2, h3⟩]
              simp [h1, h2, h3, rectCount_selCmds]
          · rw [if_neg (by tauto)]
            simp [h1, h2, rectCount]
        · rw [if_neg (by tauto)]
          simp [h1, rectCount]
    by_cases hn : c = '\n'
    · subst hn
      have hmul : font.line_spacing * (('\n' :: rest).count '\n')
          = font.line_spacing * (rest.count '\n') + font.line_spacing := by
        rw [List.count_cons_self, Nat.mul_succ]
      have hnb : ¬ (y + font.line_spacing > H) := by omega
      rw [drawLoop.eq_def]
      simp only [eq_self_iff_true, if_true, if_neg hnb]
      rw [rectCount_append, rectCount_append, hsel, hcaret0]
      rw [ih (idx + 1) 0 (y + font.line_spacing) (by omega)]
      simp [enumChars, selHit]
    · have hmul : font.line_spacing * ((c :: rest).count '\n')
          = font.line_spacing * (rest.count '\n') := by
        rw [List.count_cons]
        simp [hn]
      rw [drawLoop.eq_def]
      simp only [if_neg hn]
      by_cases htab : c = '\t'
      · simp only [if_pos htab]
        rw [rectCount_append, rectCount_append, hsel, hcaret0]
        rw [ih (idx + 1) (x + font.advance * 4) y (by omega)]
        simp only [enumChars, List.filter_cons]
        split
        · simp only [List.length_cons]
          omega
        · omega
      · simp only [if_neg htab]
        by_cases hcr : c = '\r'
        · simp only [if_pos hcr]
          rw [rectCount_append, rectCount_append, hsel, hcaret0]
          rw [ih (idx + 1) x y (by omega)]
          simp only [enumChars, List.filter_cons]
          split
          · simp only [List.length_cons]
            omega
          · omega
        · simp only [if_neg hcr]
          rw [rectCount_append, rectCount_append, rectCount_append, hsel, hcaret0,
            rectCount_glyph]
          rw [ih (idx + 1) (x + font.advance) y (by omega)]
          simp only [enumChars, List.filter_cons]
          split
          · simp only [List.length_cons]
            omega
          · omega

/-- C4 (amended): in the rendered display list a selection-highlight `Rect`
(preceded by its `Move`) is emitted exactly for the characters whose index is
in the active selection and which are not `'\n'` — the guard in the code only
excludes `'\n'`, so a selected `'\r'` also receives a highlight rectangle;
for selection `[1, 3)` over `"abcd"` exactly the characters at indices 1 and
2 are highlighted. -/
theorem selection_rect_iff (w : EditorWindow) (font : FontMetrics) (b : Buffer) (v : View)
    (hb : w.buffers.head? = some b)
    (hv : w.views[w.current_view]? = some v)
    (hclip : font.line_spacing *
        ((b.rope.drop (b.line_to_char v.first_visible_line)).count '\n') ≤ w.height) :
    ∃ cmds, w.draw font = some cmds ∧
      rectCount selColor cmds =
        ((enumChars (b.line_to_char v.first_visible_line)
            (b.rope.drop (b.line_to_char v.first_visible_line))).filter
          fun p => selHit v.selection p.1 && decide (p.2 ≠ '\n')).length := by
  set r := drawLoop v.selection v.index font w.height
    (b.rope.drop (b.line_to_char v.first_visible_line))
    (b.line_to_char v.first_visible_line) 0 0 with hr
  refine ⟨r.1 ++ (if r.2.1 = v.index then
      [DisplayCommand.Move r.2.2.1 r.2.2.2, DisplayCommand.Rect 2 font.height caretColor]
    else []), ?_, ?_⟩
  · rw [EditorWindow.draw, hb, hv]
  · rw [rectCount_append]
    have h0 : rectCount selColor (if r.2.1 = v.index then
        [DisplayCommand.Move r.2.2.1 r.2.2.2, DisplayCommand.Rect 2 font.height caretColor]
      else []) = 0 := by
      split
      · exact rectCount_caretCmds _ _ _
      · rfl
    rw [h0, hr]
    rw [drawLoop_sel_rects _ _ _ _ _ _ _ _ (by omega)]
    omega

/-- C5: drawing the buffer `"ab\ncd"` with the caret at the end-of-buffer
index 5 emits the glyphs of `a`, `b` at `y = 0`, a line break advancing `y`
by the line spacing and resetting `x`, the glyphs of `c`, `d` on the second
line, and exactly one caret rectangle, after `d`, emitted by the post-loop
end-of-buffer check. -/
theorem draw_eof_caret (pl width fh H : Nat) (font : FontMetrics)
    (h : font.line_spacing ≤ H) :
    EditorWindow.draw
      ⟨[⟨5, none, 0, pl⟩], [Buffer.from_str ('a' :: 'b' :: '\n' :: 'c' :: 'd' :: [])],
        width, H, fh, 0⟩ font =
      some [DisplayCommand.Move 0 0, DisplayCommand.Char 'a' textColor,
        DisplayCommand.Move font.advance 0, DisplayCommand.Char 'b' textColor,
        DisplayCommand.Move 0 font.line_spacing, DisplayCommand.Char 'c' textColor,
        DisplayCommand.Move font.advance font.line_spacing, DisplayCommand.Char 'd' textColor,
        DisplayCommand.Move (font.advance + font.advance) font.line_spacing,
        DisplayCommand.Rect 2 font.height caretColor] ∧
    rectCount caretColor
      [DisplayCommand.Move 0 0, DisplayCommand.Char 'a' textColor,
        DisplayCommand.Move font.advance 0, DisplayCommand.Char 'b' textColor,
        DisplayCommand.Move 0 font.line_spacing, DisplayCommand.Char 'c' textColor,
        DisplayCommand.Move font.advance font.line_spacing, DisplayCommand.Char 'd' textColor,
        DisplayCommand.Move (font.advance + font.advance) font.line_spacing,
        DisplayCommand.Rect 2 font.height caretColor] = 1 := by
  have hnb : ¬ (H < font.line_spacing) := by omega
  constructor
  · simp only [EditorWindow.draw]
    simp +decide [drawLoop, Buffer.line_to_char, lineToChar, Buffer.from_str, sumLens_nil, hnb]
  · simp [rectCount]

/-- Witness for the end-of-buffer caret theorem at a concrete font. -/
theorem draw_eof_caret_witness :
    ((⟨7, 13, 15⟩ : FontMetrics).line_spacing ≤ 600) ∧
    (EditorWindow.draw
      ⟨[⟨5, none, 0, 0⟩], [Buffer.from_str ('a' :: 'b' :: '\n' :: 'c' :: 'd' :: [])],
        800, 600, 15, 0⟩ ⟨7, 13, 15⟩ =
      some [DisplayCommand.Move 0 0, DisplayCommand.Char 'a' textColor,
        DisplayCommand.Move 7 0, DisplayCommand.Char 'b' textColor,
        DisplayCommand.Move 0 15, DisplayCommand.Char 'c' textColor,
        DisplayCommand.Move 7 15, DisplayCommand.Char 'd' textColor,
        DisplayCommand.Move 14 15, DisplayCommand.Rect 2 13 caretColor] ∧
    rectCount caretColor
      [DisplayCommand.Move 0 0, DisplayCommand.Char 'a' textColor,
        DisplayCommand.Move 7 0, DisplayCommand.Char 'b' textColor,
        DisplayCommand.Move 0 15, DisplayCommand.Char 'c' textColor,
        DisplayCommand.Move 7 15, DisplayCommand.Char 'd' textColor,
        DisplayCommand.Move 14 15, DisplayCommand.Rect 2 13 caretColor] = 1) :=
  ⟨by decide, draw_eof_caret 0 800 15 600 ⟨7, 13, 15⟩ (by decide)⟩

/-- C4 counterexample: with the whole of `"a\rb"` selected, the code emits a
selection rectangle for the `'\r'` too (its guard only excludes `'\n'`), so
three highlight rectangles appear although only two characters are
non-terminators. -/
theorem selection_rect_cr_cex :
    (EditorWindow.draw
        ⟨[⟨100, some (0, 3), 0, 0⟩], [Buffer.from_str ('a' :: '\r' :: 'b' :: [])],
          800, 600, 15, 0⟩ ⟨7, 13, 15⟩).map (rectCount selColor) = some 3 ∧
    ¬ ((EditorWindow.draw
        ⟨[⟨100, some (0, 3), 0, 0⟩], [Buffer.from_str ('a' :: '\r' :: 'b' :: [])],
          800, 600, 15, 0⟩ ⟨7, 13, 15⟩).map (rectCount selColor) =
      some ((('a' :: '\r' :: 'b' :: []) : List Char).filter
        (fun c => c != '\n' && c != '\r')).length) := by
  decide

/-- Witness for the selection-rectangle theorem on `"abcd"` with selection
`[1, 3)`: exactly the two selected characters receive a highlight. -/
theorem selection_rect_iff_witness :
    ((⟨[⟨100, some (1, 3), 0, 0⟩], [Buffer.from_str ('a' :: 'b' :: 'c' :: 'd' :: [])],
        800, 600, 15, 0⟩ : EditorWindow).buffers.head? =
          some (Buffer.from_str ('a' :: 'b' :: 'c' :: 'd' :: [])) ∧
      (⟨[⟨100, some (1, 3), 0, 0⟩], [Buffer.from_str ('a' :: 'b' :: 'c' :: 'd' :: [])],
        800, 600, 15, 0⟩ : EditorWindow).views[0]? = some ⟨100, some (1, 3), 0, 0⟩) ∧
    (∃ cmds, (⟨[⟨100, some (1, 3), 0, 0⟩],
        [Buffer.from_str ('a' :: 'b' :: 'c' :: 'd' :: [])],
        800, 600, 15, 0⟩ : EditorWindow).draw ⟨7, 13, 15⟩ = some cmds ∧
      rectCount selColor cmds =
        ((enumChars ((Buffer.from_str ('a' :: 'b' :: 'c' :: 'd' :: [])).line_to_char 0)
            ((Buffer.from_str ('a' :: 'b' :: 'c' :: 'd' :: [])).rope.drop
              ((Buffer.from_str ('a' :: 'b' :: 'c' :: 'd' :: [])).line_to_char 0))).filter
          fun p => selHit (some (1, 3)) p.1 && decide (p.2 ≠ '\n')).length) ∧
    (enumChars ((Buffer.from_str ('a' :: 'b' :: 'c' :: 'd' :: [])).line_to_char 0)
        ((Buffer.from_str ('a' :: 'b' :: 'c' :: 'd' :: [])).rope.drop
          ((Buffer.from_str ('a' :: 'b' :: 'c' :: 'd' :: [])).line_to_char 0))).filter
      (fun p => selHit (some (1, 3)) p.1 && decide (p.2 ≠ '\n')) =
        [(1, 'b'), (2, 'c')] :=
  ⟨⟨rfl, rfl⟩,
   selection_rect_iff _ ⟨7, 13, 15⟩ (Buffer.from_str ('a' :: 'b' :: 'c' :: 'd' :: []))
     ⟨100, some (1, 3), 0, 0⟩ rfl rfl (by decide),
   by decide⟩
